import Mathlib

/-
Verification of the folder-taxonomy resolution engine of the
Outlook-llm-mail-sorter repository.

The Python source ("Mail sorting.py", three redundant revisions of the same
script) is shallowly embedded here.  Strings are modelled as `List Char`.
The Python standard-library calls used by the source are modelled explicitly:

* `unicodedata.normalize("NFKD", ·)` / `unicodedata.combining` are modelled by
  a per-character decomposition table `nfkdChar` (ASCII code points are NFKD
  fixed points; a representative set of precomposed accented letters
  decomposes into a base letter followed by a combining mark in the
  U+0300–U+036F block) and the combining-class test `isCombining`.
* `str.lower` is modelled by `lowerChar` (ASCII case mapping plus the case
  pairs of the accented letters appearing in the decomposition table).
* `str.strip` is modelled by `stripWs`, `re.sub(r"\s+", " ", ·)` by
  `collapseWs`, and `str.split("/")` by `splitSlash`.
* The regular expressions of `FORBIDDEN_PATTERNS` are translated to the
  decidable predicates `patRootLike`, `patDots`, `patBadChar`, `patOpr`;
  `re.search` semantics (match anywhere in the string) is captured by
  `anySuffix`.
-/

namespace MailSort

/-! ### Character model -/

/-- Whitespace characters recognised by Python `str.strip` / regex `\s` on
`str` patterns, i.e. the characters with `str.isspace()` true, by code
point: space 32, tab–carriage return 9–13, the information separators
28–31, next line 133 (U+0085), no-break space 160 (U+00A0), ogham space
mark 5760 (U+1680), the en-quad…hair-space block 8192–8202
(U+2000–U+200A), line/paragraph separator 8232–8233 (U+2028/29),
narrow no-break space 8239 (U+202F), medium mathematical space 8287
(U+205F) and ideographic space 12288 (U+3000). -/
def isWs (c : Char) : Bool :=
  c.toNat = 32 || (9 ≤ c.toNat && c.toNat ≤ 13) ||
    (28 ≤ c.toNat && c.toNat ≤ 31) || c.toNat = 133 || c.toNat = 160 ||
    c.toNat = 5760 || (8192 ≤ c.toNat && c.toNat ≤ 8202) ||
    c.toNat = 8232 || c.toNat = 8233 || c.toNat = 8239 || c.toNat = 8287 ||
    c.toNat = 12288

/-- Combining (diacritic) code points: the combining diacritical marks block
U+0300–U+036F, which covers the decompositions produced by `nfkdChar`.
Models `unicodedata.combining(c) != 0`. -/
def isCombining (c : Char) : Bool :=
  768 ≤ c.toNat && c.toNat ≤ 879

/-- NFKD compatibility decomposition of a single character, modelling
`unicodedata.normalize("NFKD", ·)` pointwise.  ASCII characters are fixed
points; the precomposed accented letters used in the development decompose
into their base letter followed by a combining mark. -/
def nfkdChar (c : Char) : List Char :=
  if c = 'é' then ['e', Char.ofNat 769]
  else if c = 'É' then ['E', Char.ofNat 769]
  else if c = 'ë' then ['e', Char.ofNat 776]
  else if c = 'Ë' then ['E', Char.ofNat 776]
  else if c = 'ö' then ['o', Char.ofNat 776]
  else if c = 'Ö' then ['O', Char.ofNat 776]
  else [c]

/-- Lower-casing of a single character, modelling `str.lower` pointwise:
the ASCII case mapping together with the case pairs of the accented
letters of the model. -/
def lowerChar (c : Char) : Char :=
  if c = 'É' then 'é'
  else if c = 'Ë' then 'ë'
  else if c = 'Ö' then 'ö'
  else c.toLower

/-- The character class of the third forbidden pattern `[^a-zA-Z0-9/ \-]`:
`allowedChar c` holds when `c` is NOT matched by it, i.e. when `c` is a
lower-case ASCII letter (97–122), an upper-case ASCII letter (65–90), an
ASCII digit (48–57), a slash (47), a space (32) or a hyphen (45). -/
def allowedChar (c : Char) : Bool :=
  (97 ≤ c.toNat && c.toNat ≤ 122) || (65 ≤ c.toNat && c.toNat ≤ 90) ||
    (48 ≤ c.toNat && c.toNat ≤ 57) || c.toNat = 47 || c.toNat = 32 ||
    c.toNat = 45

/-! ### List-of-characters utilities -/

/-- Drop leading whitespace (one side of Python `str.strip`). -/
def dropWs : List Char → List Char
  | [] => []
  | c :: cs => if isWs c then dropWs cs else c :: cs

/-- Python `str.strip`: remove leading and trailing whitespace. -/
def stripWs (l : List Char) : List Char :=
  (dropWs ((dropWs l).reverse)).reverse

/-- Python `re.sub(r"\s+", " ", ·)`: replace every maximal run of
whitespace by a single space. -/
def collapseWs : List Char → List Char
  | [] => []
  | [c] => if isWs c then [' '] else [c]
  | c :: c2 :: cs =>
    if isWs c && isWs c2 then collapseWs (c2 :: cs)
    else (if isWs c then ' ' else c) :: collapseWs (c2 :: cs)

/-- Prefix test: `startsWithL pre s` holds when `pre` is a prefix of `s`
(Python `str.startswith`). -/
def startsWithL : List Char → List Char → Bool
  | [], _ => true
  | _ :: _, [] => false
  | p :: ps, c :: cs => p = c && startsWithL ps cs

/-- Search helper: `anySuffix p s` holds when `p` holds of some suffix of `s`; this is how
`re.search` semantics (a match may start at any position) is rendered for
the translated patterns. -/
def anySuffix (p : List Char → Bool) : List Char → Bool
  | [] => p []
  | c :: cs => p (c :: cs) || anySuffix p (cs)

/-- Python `str.split("/")`: split at every slash, keeping empty segments;
the result is always non-empty. -/
def splitSlash : List Char → List (List Char)
  | [] => [[]]
  | c :: cs =>
    if c = '/' then [] :: splitSlash cs
    else
      match splitSlash cs with
      | [] => [[c]]
      | p :: ps => (c :: p) :: ps

/-- Concatenation of path segments onto an initial segment with `/`
separators; the `real_path` accumulator of `get_or_create_folder` computes
exactly this. -/
def joinAll (base : List Char) : List (List Char) → List Char
  | [] => base
  | p :: ps => joinAll (base ++ '/' :: p) ps

/-! ### The path normalizer (`normalize_name`) -/

/-- NFKD decomposition of a whole string. -/
def nfkd (s : List Char) : List Char :=
  (s.map nfkdChar).flatten

/-- Model of `normalize_name` from the source:
`nfkd = unicodedata.normalize("NFKD", name)` followed by
`"".join(c for c in nfkd if not unicodedata.combining(c)).strip().lower()`. -/
def normalize_name (s : List Char) : List Char :=
  (stripWs ((nfkd s).filter (fun c => !(isCombining c)))).map lowerChar

/-! ### The path validator (`clean_folder_path` and `FORBIDDEN_PATTERNS`) -/

def rootToken : List Char := ("postvak in").data

def rootPfx : List Char := ("Postvak In/").data

def rootPfxLower : List Char := ("postvak in/").data

def fallbackPath : List Char := ("Postvak In/Unsorted").data

def oprToken : List Char := ("postvak in opr").data

def dotsToken : List Char := ("...").data

/-- One position of the first forbidden pattern `postvak in[^/]*[^/]`:
the literal `postvak in` starts here and, since `[^/]*[^/]` matches exactly
the non-empty runs of non-slash characters, the character immediately after
the literal exists and is not a slash. -/
def rootLikeAt (s : List Char) : Bool :=
  startsWithL rootToken s &&
    (match s.drop rootToken.length with
     | [] => false
     | d :: _ => d ≠ '/')

/-- Translation of `re.search(r"postvak in[^/]*[^/]", s)`. -/
def patRootLike (s : List Char) : Bool :=
  anySuffix rootLikeAt s

/-- Translation of `re.search(r"\.\.\.", s)`. -/
def patDots (s : List Char) : Bool :=
  anySuffix (startsWithL dotsToken) s

/-- Translation of `re.search(r"[^a-zA-Z0-9/ \-]", s)`. -/
def patBadChar (s : List Char) : Bool :=
  s.any (fun c => !(allowedChar c))

/-- Translation of `re.search(r"postvak in opr", s)`. -/
def patOpr (s : List Char) : Bool :=
  anySuffix (startsWithL oprToken) s

/-- Translation of `any(re.search(p, s) for p in FORBIDDEN_PATTERNS)`. -/
def forbiddenAny (s : List Char) : Bool :=
  patRootLike s || patDots s || patBadChar s || patOpr s

/-- Model of `clean_folder_path` from the source: strip, collapse whitespace runs,
prepend the root prefix unless the lower-cased path already starts with it,
then replace the whole path by the fallback if any forbidden pattern matches
the lower-cased path. -/
def clean_folder_path (folder_path : List Char) : List Char :=
  let c1 := stripWs folder_path
  let c2 := collapseWs c1
  let c3 := if startsWithL rootPfxLower (c2.map lowerChar) then c2
            else rootPfx ++ c2
  if forbiddenAny (c3.map lowerChar) then fallbackPath else c3

/-! ### Classifier (`classify_email`)

The LM Studio HTTP response is modelled by its status code, the
`choices[0].text` field of the parsed JSON body, and the raw body text used
in the error message.  The code performs exactly one `requests.post` call
per classification, so `classify_email` is modelled as a function of a
response oracle (call number ↦ response) that only ever consults call 0. -/

structure LMResponse where
  status_code : Nat
  text : List Char
  body : List Char

/-- Suggestion extraction: `folder = result["choices"][0]["text"].strip()` followed by
`return folder if folder else "Postvak In/Unsorted"`. -/
def suggestionOf (r : LMResponse) : List Char :=
  let folder := stripWs r.text
  if folder = [] then fallbackPath else folder

/-- Model of `classify_email` from the source, reduced to its effectful skeleton:
one `requests.post` (consulting the oracle at call index 0), then either the
returned suggestion on status 200 or a raised `RuntimeError` carrying the
status code and the response body. -/
def classify_email (oracle : Nat → LMResponse) : Except (Nat × List Char) (List Char) :=
  let response := oracle 0
  if response.status_code = 200 then Except.ok (suggestionOf response)
  else Except.error (response.status_code, response.body)

def isOkE {ε α : Type} : Except ε α → Bool
  | .ok _ => true
  | .error _ => false

/-! ### Folder tree and cache

An Outlook folder is a node with a name and a child list; `Folders.Add`
appends a child at the end of the list, and the `next(f for f in
folder.Folders if f.Name == part)` search is first-match in list order.
A node is identified by its index path from the root, which makes "the same
real folder node" expressible for the pure embedding. -/

inductive Folder where
  | mk (name : List Char) (children : List Folder)

def Folder.name : Folder → List Char
  | .mk n _ => n

def Folder.children : Folder → List Folder
  | .mk _ cs => cs

/-- Child at index `i` (total; all uses are in-bounds). -/
def getIdx : List Folder → Nat → Folder
  | [], _ => Folder.mk [] []
  | f :: _, 0 => f
  | _ :: fs, n + 1 => getIdx fs n

/-- Index of the first child whose name equals `nm`:
`next((f for f in folder.Folders if f.Name == part), None)`. -/
def findIdxNamed (nm : List Char) : List Folder → Option Nat
  | [] => none
  | f :: fs => if f.name = nm then some 0 else (findIdxNamed nm fs).map (· + 1)

/-- The `known_folders` dict: normalized key ↦ real path.  Modelled as an
association list where insertion prepends and lookup takes the first match,
which gives Python-dict lookup semantics (the most recent insert for a key
wins) while keeping every entry ever inserted in the structure. -/
abbrev Cache := List (List Char × List Char)

def lookupC : Cache → List Char → Option (List Char)
  | [], _ => none
  | e :: es, k => if e.1 = k then some e.2 else lookupC es k

/-- Cache insert: `known_folders[normalize_name(path)] = path`. -/
def record (cache : Cache) (path : List Char) : Cache :=
  (normalize_name path, path) :: cache

def inboxName : List Char := ("Postvak In").data

def unsortedName : List Char := ("Unsorted").data

/-- Recursion of `build_folder_cache` over the child lists: for each child,
record `base/f.Name` and recurse into the child before moving to the next
sibling. -/
def buildKids : List Folder → List Char → Cache → Cache
  | [], _, cache => cache
  | Folder.mk nm kids :: fs, base, cache =>
    buildKids fs base (buildKids kids (base ++ '/' :: nm) (record cache (base ++ '/' :: nm)))

/-- Model of `build_folder_cache(root, base="Postvak In")` from the source. -/
def build_folder_cache (root : Folder) (base : List Char) (cache : Cache) : Cache :=
  buildKids root.children base cache

/-- The name chains (real paths) of all folders strictly below the nodes of
`fs`, in the pre-order the traversal of `build_folder_cache` visits them. -/
def pathsKids : List Folder → List Char → List (List Char)
  | [], _ => []
  | Folder.mk nm kids :: fs, base =>
    (base ++ '/' :: nm) :: (pathsKids kids (base ++ '/' :: nm) ++ pathsKids fs base)

/-- Real paths of all folders reachable strictly below `root` (the nodes the
cache-rebuild traversal emits). -/
def allPaths (root : Folder) (base : List Char) : List (List Char) :=
  pathsKids root.children base

/-! ### Folder resolver (`get_or_create_folder`) -/

/-- Outcome of the segment walk: the index path of the reached node, or the
abandon signal of the `CREATE_NEW_FOLDERS=False` branch. -/
inductive RRes where
  | node : List Nat → RRes
  | fallback : RRes
deriving DecidableEq

def RRes.push (i : Nat) : RRes → RRes
  | .node l => .node (i :: l)
  | .fallback => .fallback

/-- Result of the segment walk: mutated tree, mutated cache, outcome, and
the number of `Folders.Add` calls performed (the creation-count probe). -/
structure WOut where
  tree : Folder
  cache : Cache
  res : RRes
  created : Nat

/-- The `for part in parts[1:]` loop of `get_or_create_folder`: find the
first child named `part` (descend), else create it at the end of the child
list when allowed, else abandon; after each descent record the cumulative
`real_path`. -/
def walkF (create : Bool) : List (List Char) → Folder → List Char → Cache → WOut
  | [], f, _, cache => ⟨f, cache, .node [], 0⟩
  | part :: rest, f, real, cache =>
    match findIdxNamed part f.children with
    | some i =>
      let real2 := real ++ '/' :: part
      let o := walkF create rest (getIdx f.children i) real2 (record cache real2)
      ⟨Folder.mk f.name (f.children.set i o.tree), o.cache, o.res.push i, o.created⟩
    | none =>
      if create then
        let real2 := real ++ '/' :: part
        let o := walkF create rest (Folder.mk part []) real2 (record cache real2)
        ⟨Folder.mk f.name (f.children ++ [o.tree]), o.cache,
          o.res.push f.children.length, o.created + 1⟩
      else
        ⟨f, cache, .fallback, 0⟩

/-- The cache short-circuit at the top of `get_or_create_folder`:
`if norm in known_folders: folder_path = known_folders[norm]`. -/
def resolveInput (cache : Cache) (folder_path : List Char) : List Char :=
  match lookupC cache (normalize_name folder_path) with
  | some p => p
  | none => folder_path

/-- Index-path form of `next((f for f in root_folder.Folders if f.Name == "Unsorted"), root_folder)`
as an index path from the root. -/
def fallbackIdx (root : Folder) : List Nat :=
  match findIdxNamed unsortedName root.children with
  | some i => [i]
  | none => []

/-- Result of a resolve call: final tree, final cache, index path of the
returned folder node, and number of folders created. -/
structure ROut where
  tree : Folder
  cache : Cache
  node : List Nat
  created : Nat

/-- The body of `get_or_create_folder` up to the final return: cache
short-circuit, `parts = folder_path.split("/")`,
`real_path = parts[0] if parts else "Postvak In"`, then the walk over
`parts[1:]`. -/
def walkOf (create : Bool) (root_folder : Folder) (cache : Cache)
    (folder_path : List Char) : WOut :=
  let fp := resolveInput cache folder_path
  let parts := splitSlash fp
  let real0 := match parts with
               | [] => inboxName
               | p :: _ => p
  walkF create parts.tail root_folder real0 cache

/-- Model of `get_or_create_folder(root_folder, folder_path)` from the source, with
the global `CREATE_NEW_FOLDERS`, the global cache and the tree threaded
explicitly. -/
def get_or_create_folder (create : Bool) (root_folder : Folder) (cache : Cache)
    (folder_path : List Char) : ROut :=
  let o := walkOf create root_folder cache folder_path
  match o.res with
  | .node idx => ⟨o.tree, o.cache, idx, o.created⟩
  | .fallback => ⟨o.tree, o.cache, fallbackIdx o.tree, o.created⟩

/-- The cache self-consistency invariant: every entry maps the normalized
form of its value to that value. -/
def CacheWF (cache : Cache) : Prop :=
  ∀ e ∈ cache, e.1 = normalize_name e.2

/-- Helper predicate for the whitespace-collapse wording of the spec: no two
adjacent whitespace characters. -/
def wsCollapsed : List Char → Bool
  | [] => true
  | [_] => true
  | c :: c2 :: cs => !(isWs c && isWs c2) && wsCollapsed (c2 :: cs)

/-- Upper-case ASCII letter test (code points 65–90). -/
def upperAscii (c : Char) : Bool :=
  65 ≤ c.toNat && c.toNat ≤ 90

/-! ## Character-level lemmas -/

theorem charEq_of_toNat {a b : Char} (h : a.toNat = b.toNat) : a = b :=
  Char.eq_of_val_eq (UInt32.ext h)

theorem charEq_iff {a b : Char} : a = b ↔ a.toNat = b.toNat :=
  ⟨fun h => by rw [h], charEq_of_toNat⟩

theorem toNat_ofNat_valid (n : Nat) (h : n < 55296) : (Char.ofNat n).toNat = n := by
  simp [Char.ofNat, Nat.isValidChar, h, Char.ofNatAux, Char.toNat, UInt32.toNat,
    UInt32.ofNat']

theorem toLower_toNat (c : Char) :
    (Char.toLower c).toNat =
      if 65 ≤ c.toNat ∧ c.toNat ≤ 90 then c.toNat + 32 else c.toNat := by
  show (if c.toNat ≥ 65 ∧ c.toNat ≤ 90 then Char.ofNat (c.toNat + 32) else c).toNat = _
  split
  · next h => rw [toNat_ofNat_valid _ (by omega)]
  · rfl

theorem lowerChar_toNat (c : Char) :
    (lowerChar c).toNat =
      if c.toNat = 201 then 233
      else if c.toNat = 203 then 235
      else if c.toNat = 214 then 246
      else if 65 ≤ c.toNat ∧ c.toNat ≤ 90 then c.toNat + 32
      else c.toNat := by
  unfold lowerChar
  by_cases h1 : c = 'É'
  · subst h1; decide
  · have n1 : c.toNat ≠ 201 := by
      intro hh
      exact h1 (charEq_of_toNat (by rw [hh]; decide))
    rw [if_neg h1, if_neg n1]
    by_cases h2 : c = 'Ë'
    · subst h2; decide
    · have n2 : c.toNat ≠ 203 := by
        intro hh
        exact h2 (charEq_of_toNat (by rw [hh]; decide))
      rw [if_neg h2, if_neg n2]
      by_cases h3 : c = 'Ö'
      · subst h3; decide
      · have n3 : c.toNat ≠ 214 := by
          intro hh
          exact h3 (charEq_of_toNat (by rw [hh]; decide))
        rw [if_neg h3, if_neg n3]
        exact toLower_toNat c

theorem isWs_lowerChar (c : Char) : isWs (lowerChar c) = isWs c := by
  have h := lowerChar_toNat c
  rw [Bool.eq_iff_iff]
  simp only [isWs, Bool.or_eq_true, Bool.and_eq_true, decide_eq_true_eq]
  repeat' split at h
  all_goals omega

theorem isCombining_lowerChar (c : Char) :
    isCombining (lowerChar c) = isCombining c := by
  have h := lowerChar_toNat c
  rw [Bool.eq_iff_iff]
  simp only [isCombining, Bool.and_eq_true, decide_eq_true_eq]
  repeat' split at h
  all_goals omega

theorem upperAscii_lowerChar (c : Char) : upperAscii (lowerChar c) = false := by
  have h := lowerChar_toNat c
  rw [Bool.eq_false_iff]
  simp only [ne_eq, upperAscii, Bool.and_eq_true, decide_eq_true_eq, not_and]
  repeat' split at h
  all_goals omega

theorem lowerChar_slash {c : Char} : lowerChar c = '/' ↔ c = '/' := by
  rw [charEq_iff, charEq_iff]
  have h := lowerChar_toNat c
  have h47 : ('/').toNat = 47 := by decide
  rw [h47]
  repeat' split at h
  all_goals omega

theorem slash_nfkdChar {c : Char} : '/' ∈ nfkdChar c ↔ c = '/' := by
  unfold nfkdChar
  repeat' split
  all_goals first
    | (subst_vars; decide)
    | simp [List.mem_singleton, eq_comm]

/-! ## List-level lemmas -/

theorem mem_dropWs_iff {a : Char} (ha : isWs a = false) :
    ∀ l : List Char, (a ∈ dropWs l ↔ a ∈ l)
  | [] => Iff.rfl
  | c :: cs => by
    unfold dropWs
    split
    · next hc =>
      rw [mem_dropWs_iff ha cs]
      simp only [List.mem_cons]
      constructor
      · exact Or.inr
      · rintro (rfl | h)
        · rw [ha] at hc; exact absurd hc (by simp)
        · exact h
    · exact Iff.rfl

theorem mem_stripWs_iff {a : Char} (ha : isWs a = false) (l : List Char) :
    a ∈ stripWs l ↔ a ∈ l := by
  unfold stripWs
  rw [List.mem_reverse, mem_dropWs_iff ha, List.mem_reverse, mem_dropWs_iff ha]

theorem startsWithL_append (k r : List Char) : startsWithL k (k ++ r) = true := by
  induction k with
  | nil => rfl
  | cons p ps ih => simp [startsWithL, ih]

theorem startsWithL_ne_nil {p : Char} {ps s : List Char}
    (h : startsWithL (p :: ps) s = true) : s ≠ [] := by
  cases s with
  | nil => exact absurd h (by simp [startsWithL])
  | cons c cs => simp

theorem startsWithL_ne_nil' {k s : List Char} (hk : k ≠ [])
    (h : startsWithL k s = true) : s ≠ [] := by
  cases k with
  | nil => exact absurd rfl hk
  | cons p ps => exact startsWithL_ne_nil h

theorem dropWs_head : ∀ {l : List Char} {c : Char} {t : List Char},
    dropWs l = c :: t → isWs c = false
  | [], c, t, h => by simp [dropWs] at h
  | b :: bs, c, t, h => by
    unfold dropWs at h
    split at h
    · exact dropWs_head h
    · next hb =>
      rcases List.cons.injEq .. ▸ h with ⟨rfl, rfl⟩
      exact Bool.not_eq_true _ ▸ hb

theorem dropWs_of_head {c : Char} {t : List Char} (h : isWs c = false) :
    dropWs (c :: t) = c :: t := by
  unfold dropWs
  rw [h]
  simp

theorem dropWs_idem (l : List Char) : dropWs (dropWs l) = dropWs l := by
  cases h : dropWs l with
  | nil => rfl
  | cons c t => exact dropWs_of_head (dropWs_head h)

theorem exists_dropWs (l : List Char) : ∃ w, l = w ++ dropWs l := by
  induction l with
  | nil => exact ⟨[], rfl⟩
  | cons c cs ih =>
    unfold dropWs
    split
    · obtain ⟨w, hw⟩ := ih
      exact ⟨c :: w, by rw [List.cons_append, ← hw]⟩
    · exact ⟨[], rfl⟩

theorem dropWs_subset (l : List Char) : dropWs l ⊆ l := by
  obtain ⟨w, hw⟩ := exists_dropWs l
  intro a ha
  rw [hw]
  exact List.mem_append_right _ ha

theorem stripWs_subset (l : List Char) : stripWs l ⊆ l := by
  intro a ha
  unfold stripWs at ha
  rw [List.mem_reverse] at ha
  have h1 := dropWs_subset _ ha
  rw [List.mem_reverse] at h1
  exact dropWs_subset _ h1

theorem stripWs_idem (l : List Char) : stripWs (stripWs l) = stripWs l := by
  unfold stripWs
  have h1 : dropWs ((dropWs ((dropWs l).reverse)).reverse)
      = (dropWs ((dropWs l).reverse)).reverse := by
    cases hDrev : (dropWs ((dropWs l).reverse)).reverse with
    | nil => rfl
    | cons b t' =>
      apply dropWs_of_head
      obtain ⟨w, hw⟩ := exists_dropWs ((dropWs l).reverse)
      have hA := congrArg List.reverse hw
      rw [List.reverse_reverse, List.reverse_append] at hA
      rw [hDrev, List.cons_append] at hA
      exact dropWs_head hA
  rw [h1, List.reverse_reverse, dropWs_idem]

theorem dropWs_map_lower (l : List Char) :
    dropWs (l.map lowerChar) = (dropWs l).map lowerChar := by
  induction l with
  | nil => rfl
  | cons c cs ih =>
    simp only [List.map_cons]
    unfold dropWs
    rw [isWs_lowerChar]
    split
    · exact ih
    · simp

theorem stripWs_map_lower (l : List Char) :
    stripWs (l.map lowerChar) = (stripWs l).map lowerChar := by
  unfold stripWs
  rw [dropWs_map_lower, ← List.map_reverse, dropWs_map_lower, ← List.map_reverse]

/-! ## Claim C2 — validator and characters outside `[A-Za-z0-9/ -]`

The claim as stated is false: a whitespace character such as TAB — or a
Unicode whitespace character such as the no-break space U+00A0, since the
`\s` of `re.sub(r"\s+", " ")` matches all of `str.isspace()` on `str`
patterns — is outside the class, but `clean_folder_path` collapses it into a
plain space before the pattern test, so the path is accepted.  The amended
claim restricts the quantifier to non-whitespace characters outside the
class, with whitespace meaning the full Python whitespace set `isWs`. -/

/-- Claim C3, counterexample: for the input `"postvak in/x"` the validator
returns the path unchanged, and the result does not start with the literal
root-prefix token `"Postvak In/"`. -/
theorem C3_counterexample :
    clean_folder_path (("postvak in/x").data) = ("postvak in/x").data ∧
      startsWithL rootPfx (clean_folder_path (("postvak in/x").data)) = false := by
  constructor
  · decide
  · decide

/-- Claim C3 (amended): for every input string, `clean_folder_path` returns a
non-empty path whose lower-casing begins with the root-prefix token
`"postvak in/"` — i.e. the output begins with the root-prefix token up to
case; `clean_folder_path` is total and never fails.  (The literal claim fails
only because the prefix test of the code is case-insensitive.) -/
theorem C3_validate_nonempty_rooted (s : List Char) :
    clean_folder_path s ≠ [] ∧
      startsWithL rootPfxLower ((clean_folder_path s).map lowerChar) = true := by
  simp only [clean_folder_path]
  split
  · next hP =>
    split
    · exact ⟨by decide, by decide⟩
    · refine ⟨?_, hP⟩
      intro hnil
      rw [hnil] at hP
      exact absurd hP (by decide)
  · split
    · exact ⟨by decide, by decide⟩
    · constructor
      · intro hnil
        rw [List.append_eq_nil] at hnil
        exact absurd hnil.1 (by decide)
      · rw [List.map_append]
        have hr : rootPfx.map lowerChar = rootPfxLower := by decide
        rw [hr]
        exact startsWithL_append _ _

/-! ## Claim C7 — what `normalize_name` guarantees

The claim as stated is false: `normalize_name` never collapses internal
whitespace runs (it only strips the surrounding whitespace), as the
counterexample `"a  b"` shows.  The amended claim keeps the true parts:
the canonical key is free of combining (diacritic) code points, contains no
upper-case ASCII letter, and is trimmed (a fixed point of `stripWs`);
internal whitespace is preserved, not collapsed. -/

/-- Claim C7, counterexample: `normalize_name` leaves the internal double
space of `"a  b"` in place, so the returned key is not
whitespace-collapsed. -/
theorem C7_counterexample :
    normalize_name (("a  b").data) = ("a  b").data ∧
      wsCollapsed (normalize_name (("a  b").data)) = false := by
  constructor
  · decide
  · decide

/-- Claim C7 (amended): for every input string, `normalize_name` returns a
key that is diacritic-free (no combining code points), case-folded (no
upper-case ASCII letters) and trimmed of surrounding whitespace (a fixed
point of `stripWs`); internal whitespace runs are preserved rather than
collapsed (see the counterexample). -/
theorem C7_normalize_properties (s : List Char) :
    (∀ c ∈ normalize_name s, isCombining c = false ∧ upperAscii c = false) ∧
      stripWs (normalize_name s) = normalize_name s := by
  constructor
  · intro c hc
    simp only [normalize_name, List.mem_map] at hc
    obtain ⟨d, hd, rfl⟩ := hc
    have hd2 : d ∈ (nfkd s).filter (fun c => !(isCombining c)) := stripWs_subset _ hd
    have hcomb : isCombining d = false := by
      have := (List.mem_filter.mp hd2).2
      simpa using this
    exact ⟨by rw [isCombining_lowerChar]; exact hcomb, upperAscii_lowerChar d⟩
  · simp only [normalize_name]
    rw [← stripWs_map_lower, stripWs_idem, stripWs_map_lower]

/-- Claim C7, witness for the amended theorem at a concrete input:
`normalize_name "A/"` contains `'a'`, which is neither combining nor
upper-case, and the key is a fixed point of `stripWs`. -/
theorem C7_normalize_properties_witness :
    ('a') ∈ normalize_name (("A/").data) ∧
      (isCombining 'a' = false ∧ upperAscii 'a' = false) ∧
      stripWs (normalize_name (("A/").data)) = normalize_name (("A/").data) :=
  ⟨by decide, (C7_normalize_properties (("A/").data)).1 'a' (by decide),
    (C7_normalize_properties (("A/").data)).2⟩

/-! ## Claim C9 — the root-like deny pattern is over-broad -/

/-- Claim C9: there is an input path that begins with the literal root-prefix
token, contains only characters of the allowed class `[A-Za-z0-9/ -]` and no
ellipsis, yet is rejected to the fallback path because the root token occurs
as a substring of a deeper segment and triggers the root-like pattern
`postvak in[^/]*[^/]`.  Witness: `"Postvak In/Postvak Invoices"`. -/
theorem C9_rootlike_overbroad :
    ∃ s : List Char,
      startsWithL rootPfx s = true ∧
      (∀ c ∈ s, allowedChar c = true) ∧
      patDots s = false ∧
      patRootLike (s.map lowerChar) = true ∧
      clean_folder_path s = fallbackPath := by
  refine ⟨("Postvak In/Postvak Invoices").data, ?_, ?_, ?_, ?_, ?_⟩
  · decide
  · decide
  · decide
  · decide
  · decide

/-! ## Cache-rebuild lemmas -/

/-- The cache built by the traversal is exactly the pre-order list of emitted
`(key, path)` pairs, reversed (because insertion prepends), on top of the
initial cache. -/
theorem buildKids_eq : ∀ fs base cache,
    buildKids fs base cache
      = ((pathsKids fs base).map (fun p => (normalize_name p, p))).reverse ++ cache := by
  intro fs base cache
  induction fs, base, cache using buildKids.induct with
  | case1 base cache => simp [buildKids, pathsKids]
  | case2 nm kids fs base cache ih1 ih2 =>
    simp only [buildKids]
    rw [ih2, ih1]
    simp [pathsKids, record, List.reverse_append, List.reverse_cons, List.append_assoc]

theorem build_folder_cache_eq (root : Folder) (base : List Char) (cache : Cache) :
    build_folder_cache root base cache
      = ((allPaths root base).map (fun p => (normalize_name p, p))).reverse ++ cache :=
  buildKids_eq root.children base cache

/-- If some path of `l` has key `k`, the lookup over the keyed image of `l`
returns the first such path. -/
theorem lookupC_map_found :
    ∀ (l : List (List Char)) (k : List Char), (∃ p, p ∈ l ∧ normalize_name p = k) →
      ∃ q, lookupC (l.map (fun p => (normalize_name p, p))) k = some q ∧
        q ∈ l ∧ normalize_name q = k := by
  intro l k
  induction l with
  | nil =>
    rintro ⟨p, hp, _⟩
    cases hp
  | cons e es ih =>
    rintro ⟨p, hp, hk⟩
    by_cases he : normalize_name e = k
    · exact ⟨e, by simp [lookupC, he], List.mem_cons_self _ _, he⟩
    · rcases List.mem_cons.mp hp with rfl | hp2
      · exact absurd hk he
      · obtain ⟨q, h1, h2, h3⟩ := ih ⟨p, hp2, hk⟩
        exact ⟨q, by simp [lookupC, he, h1], List.mem_cons_of_mem _ h2, h3⟩

/-! ## Claim C6 — forward lookup after the cache rebuild

The claim as stated is false: the traversal keys a folder by the normalized
form of its path, and two distinct folders may share a key (for example
sibling folders named `"A"` and `"a"`); the later pre-order insert wins the
dict slot, so the earlier folder's lookup returns the other folder's path.
The amended claim states that the lookup always succeeds with the path of
some tree folder carrying the same key, and returns the folder's own path
whenever its key is unique in the tree. -/

/-- Claim C6, counterexample: in the tree with sibling folders `"A"` and
`"a"` below the root, the folder `"Postvak In/A"` exists, yet looking up its
own canonical key returns `"Postvak In/a"` (the later pre-order entry), not
its own real path. -/
theorem C6_counterexample :
    (("Postvak In/A").data) ∈ allPaths
        (Folder.mk inboxName
          [Folder.mk (("A").data) [], Folder.mk (("a").data) []]) inboxName ∧
      lookupC
        (build_folder_cache
          (Folder.mk inboxName
            [Folder.mk (("A").data) [], Folder.mk (("a").data) []]) inboxName [])
        (normalize_name (("Postvak In/A").data))
      = some (("Postvak In/a").data) := by
  constructor
  · simp only [allPaths, pathsKids, Folder.children]
    decide
  · simp only [build_folder_cache, buildKids, record, Folder.children]
    decide

/-- Claim C6 (amended): after the cache rebuild, for every folder node
strictly below the root (with real path `P`, the node's name chain), looking
up `P`'s canonical key succeeds and returns the real path of a tree folder
with the same canonical key; if no other tree folder shares that key, the
returned path is `P` itself.  (The original claim fails when two folders'
paths share one canonical key: the later pre-order entry wins the lookup.) -/
theorem C6_cache_lookup (root : Folder) (base P : List Char)
    (hP : P ∈ allPaths root base) :
    (∃ Q, lookupC (build_folder_cache root base []) (normalize_name P) = some Q ∧
        Q ∈ allPaths root base ∧ normalize_name Q = normalize_name P) ∧
      ((∀ Q ∈ allPaths root base, normalize_name Q = normalize_name P → Q = P) →
        lookupC (build_folder_cache root base []) (normalize_name P) = some P) := by
  have hb : build_folder_cache root base []
      = ((allPaths root base).reverse.map (fun p => (normalize_name p, p))) := by
    rw [build_folder_cache_eq, List.append_nil, List.map_reverse]
  have hmem : P ∈ (allPaths root base).reverse := List.mem_reverse.mpr hP
  obtain ⟨Q, h1, h2, h3⟩ :=
    lookupC_map_found ((allPaths root base).reverse) (normalize_name P)
      ⟨P, hmem, rfl⟩
  have h2' : Q ∈ allPaths root base := List.mem_reverse.mp h2
  constructor
  · exact ⟨Q, by rw [hb]; exact h1, h2', h3⟩
  · intro hu
    have hQP : Q = P := hu Q h2' h3
    rw [hb]
    rw [hQP] at h1
    exact h1

/-- Claim C6, witness for the amended theorem: in the single-folder tree
`"Postvak In"/"Work"`, the folder `"Postvak In/Work"` exists, its key is
unique, and the lookup returns its own path. -/
theorem C6_cache_lookup_witness :
    (("Postvak In/Work").data) ∈ allPaths
        (Folder.mk inboxName [Folder.mk (("Work").data) []]) inboxName ∧
      lookupC
        (build_folder_cache
          (Folder.mk inboxName [Folder.mk (("Work").data) []]) inboxName [])
        (normalize_name (("Postvak In/Work").data))
      = some (("Postvak In/Work").data) := by
  have hAll : allPaths (Folder.mk inboxName [Folder.mk (("Work").data) []]) inboxName
      = [("Postvak In/Work").data] := by
    simp only [allPaths, pathsKids, Folder.children]
    decide
  have hmem : (("Postvak In/Work").data) ∈ allPaths
      (Folder.mk inboxName [Folder.mk (("Work").data) []]) inboxName := by
    rw [hAll]
    exact List.mem_singleton.mpr rfl
  refine ⟨hmem, (C6_cache_lookup _ _ _ hmem).2 ?_⟩
  intro Q hQ _
  rw [hAll] at hQ
  exact List.mem_singleton.mp hQ

/-! ## Claim C8 — classifier error behaviour -/

/-- Claim C8: the classification call raises a hard failure if and only if
the response status is not 200; on a 200 response it returns the suggestion
derived from the response text (the stripped text, with the fixed fallback
substituted only when that is empty); on a non-200 response it raises an
error carrying the status and body; and the result depends only on the first
(index-0) call to the oracle — no retry is ever attempted. -/
theorem C8_classify_hard_failure (oracle : Nat → LMResponse) :
    (isOkE (classify_email oracle) = true ↔ (oracle 0).status_code = 200) ∧
      ((oracle 0).status_code = 200 →
        classify_email oracle = Except.ok (suggestionOf (oracle 0))) ∧
      ((oracle 0).status_code ≠ 200 →
        classify_email oracle
          = Except.error ((oracle 0).status_code, (oracle 0).body)) ∧
      (∀ oracle2 : Nat → LMResponse, oracle2 0 = oracle 0 →
        classify_email oracle2 = classify_email oracle) := by
  refine ⟨?_, ?_, ?_, ?_⟩
  · by_cases h : (oracle 0).status_code = 200 <;> simp [classify_email, h, isOkE]
  · intro h
    simp [classify_email, h]
  · intro h
    simp [classify_email, h]
  · intro oracle2 h2
    simp only [classify_email, h2]

/-- Claim C8, witness: with an oracle answering status 200 and text
`"Postvak In/Work"`, the call succeeds and returns that suggestion; with an
oracle answering status 500, the call raises. -/
theorem C8_classify_hard_failure_witness :
    isOkE (classify_email (fun _ => ⟨200, ("Postvak In/Work").data, []⟩)) = true ∧
      classify_email (fun _ => ⟨200, ("Postvak In/Work").data, []⟩)
        = Except.ok (("Postvak In/Work").data) ∧
      classify_email (fun _ => ⟨500, [], ("boom").data⟩)
        = Except.error (500, ("boom").data) := by
  refine ⟨?_, ?_, ?_⟩
  · exact (C8_classify_hard_failure (fun _ => ⟨200, ("Postvak In/Work").data, []⟩)).1.mpr rfl
  · rw [(C8_classify_hard_failure (fun _ => ⟨200, ("Postvak In/Work").data, []⟩)).2.1 rfl]
    rfl
  · exact (C8_classify_hard_failure (fun _ => ⟨500, [], ("boom").data⟩)).2.2.1 (by decide)

/-! ## Resolver groundwork: child search, indexing and list surgery -/

theorem findIdxNamed_some : ∀ {nm : List Char} {l : List Folder} {i : Nat},
    findIdxNamed nm l = some i →
      i < l.length ∧ (getIdx l i).name = nm ∧ ∀ j, j < i → (getIdx l j).name ≠ nm := by
  intro nm l
  induction l with
  | nil => intro i h; simp [findIdxNamed] at h
  | cons f fs ih =>
    intro i h
    unfold findIdxNamed at h
    split at h
    · next hf =>
      rcases Option.some.injEq .. ▸ h with rfl
      refine ⟨by simp, hf, ?_⟩
      intro j hj
      omega
    · next hf =>
      rcases Option.map_eq_some'.mp h with ⟨i', hi', rfl⟩
      obtain ⟨h1, h2, h3⟩ := ih hi'
      refine ⟨by simpa using h1, h2, ?_⟩
      intro j hj
      cases j with
      | zero => simpa [getIdx] using hf
      | succ j' => exact h3 j' (by omega)

theorem findIdxNamed_none : ∀ {nm : List Char} {l : List Folder},
    findIdxNamed nm l = none → ∀ j, j < l.length → (getIdx l j).name ≠ nm := by
  intro nm l
  induction l with
  | nil => intro _ j hj; simp at hj
  | cons f fs ih =>
    intro h j hj
    unfold findIdxNamed at h
    split at h
    · exact absurd h (by simp)
    · next hf =>
      cases j with
      | zero => simpa [getIdx] using hf
      | succ j' =>
        have h2 : findIdxNamed nm fs = none := by
          cases hx : findIdxNamed nm fs with
          | none => rfl
          | some v => rw [hx] at h; simp at h
        exact ih h2 j' (by simpa using hj)

theorem findIdxNamed_intro : ∀ {nm : List Char} {l : List Folder} {i : Nat},
    i < l.length → (getIdx l i).name = nm → (∀ j, j < i → (getIdx l j).name ≠ nm) →
      findIdxNamed nm l = some i := by
  intro nm l
  induction l with
  | nil => intro i h; simp at h
  | cons f fs ih =>
    intro i hlen hname hbefore
    unfold findIdxNamed
    cases i with
    | zero =>
      rw [if_pos (by simpa [getIdx] using hname)]
    | succ i' =>
      have hf : f.name ≠ nm := by
        have := hbefore 0 (by omega)
        simpa [getIdx] using this
      rw [if_neg hf]
      have : findIdxNamed nm fs = some i' := by
        refine ih (by simpa using hlen) (by simpa [getIdx] using hname) ?_
        intro j hj
        have := hbefore (j + 1) (by omega)
        simpa [getIdx] using this
      rw [this]
      rfl

theorem getIdx_set_eq : ∀ {l : List Folder} {i : Nat} (x : Folder),
    i < l.length → getIdx (l.set i x) i = x := by
  intro l
  induction l with
  | nil => intro i x h; simp at h
  | cons f fs ih =>
    intro i x h
    cases i with
    | zero => rfl
    | succ i' => exact ih x (by simpa using h)

theorem getIdx_set_ne : ∀ {l : List Folder} {i j : Nat} (x : Folder),
    j ≠ i → getIdx (l.set i x) j = getIdx l j := by
  intro l
  induction l with
  | nil => intro i j x _; cases i <;> cases j <;> rfl
  | cons f fs ih =>
    intro i j x hne
    cases i with
    | zero =>
      cases j with
      | zero => exact absurd rfl hne
      | succ j' => rfl
    | succ i' =>
      cases j with
      | zero => rfl
      | succ j' => exact ih x (by omega)

theorem set_getIdx_self : ∀ {l : List Folder} {i : Nat},
    i < l.length → l.set i (getIdx l i) = l := by
  intro l
  induction l with
  | nil => intro i h; simp at h
  | cons f fs ih =>
    intro i h
    cases i with
    | zero => rfl
    | succ i' =>
      show f :: fs.set i' (getIdx fs i') = f :: fs
      rw [ih (by simpa using h)]

theorem getIdx_append_len (l : List Folder) (x : Folder) :
    getIdx (l ++ [x]) l.length = x := by
  induction l with
  | nil => rfl
  | cons f fs ih => simpa [getIdx] using ih

theorem set_append_len (l : List Folder) (x y : Folder) :
    (l ++ [x]).set l.length y = l ++ [y] := by
  induction l with
  | nil => rfl
  | cons f fs ih =>
    show f :: (fs ++ [x]).set fs.length y = f :: (fs ++ [y])
    rw [ih]

/-! ## Path split/join lemmas -/

theorem splitSlash_ne_nil : ∀ s : List Char, splitSlash s ≠ []
  | [] => by simp [splitSlash]
  | c :: cs => by
    unfold splitSlash
    split
    · simp
    · cases hx : splitSlash cs <;> simp

theorem joinAll_append (x y : List Char) :
    ∀ r : List (List Char), joinAll (x ++ y) r = x ++ joinAll y r := by
  intro r
  induction r generalizing y with
  | nil => rfl
  | cons p ps ih =>
    show joinAll ((x ++ y) ++ '/' :: p) ps = x ++ joinAll (y ++ '/' :: p) ps
    rw [List.append_assoc]
    exact ih (y ++ '/' :: p)

theorem joinAll_splitSlash : ∀ (s : List Char) {p : List Char} {ps : List (List Char)},
    splitSlash s = p :: ps → joinAll p ps = s
  | [], p, ps, h => by
    simp only [splitSlash] at h
    rcases List.cons.injEq .. ▸ h with ⟨rfl, rfl⟩
    rfl
  | c :: cs, p, ps, h => by
    unfold splitSlash at h
    split at h
    · next hc =>
      rcases List.cons.injEq .. ▸ h with ⟨rfl, rfl⟩
      cases hx : splitSlash cs with
      | nil => exact absurd hx (splitSlash_ne_nil cs)
      | cons q rest =>
        have hq := joinAll_splitSlash cs hx
        subst hc
        show joinAll ([] ++ '/' :: q) rest = '/' :: cs
        rw [show ('/' : Char) :: q = ['/'] ++ q from rfl]
        rw [← List.append_assoc, joinAll_append]
        simp [hq]
    · next hc =>
      cases hx : splitSlash cs with
      | nil => exact absurd hx (splitSlash_ne_nil cs)
      | cons q rest =>
        rw [hx] at h
        have h' : (c :: q) :: rest = p :: ps := h
        injection h' with h1 h2
        subst h1
        subst h2
        have hq := joinAll_splitSlash cs hx
        show joinAll (c :: q) rest = c :: cs
        rw [show (c :: q) = [c] ++ q from rfl, joinAll_append]
        simp [hq]

theorem splitSlash_no_slash : ∀ {s : List Char}, ('/') ∉ s → splitSlash s = [s]
  | [], _ => rfl
  | c :: cs, h => by
    unfold splitSlash
    have hc : c ≠ '/' := fun hc => h (hc ▸ List.mem_cons_self _ _)
    rw [if_neg hc]
    have hcs : ('/') ∉ cs := fun h2 => h (List.mem_cons_of_mem _ h2)
    rw [splitSlash_no_slash hcs]

theorem slash_mem_splitSlash_length : ∀ {s : List Char}, ('/') ∈ s →
    2 ≤ (splitSlash s).length
  | c :: cs, h => by
    unfold splitSlash
    split
    · have h1 := splitSlash_ne_nil cs
      have h2 : 1 ≤ (splitSlash cs).length := by
        cases hx : splitSlash cs with
        | nil => exact absurd hx h1
        | cons q rest => simp
      simpa using h2
    · next hc =>
      have hcs : ('/') ∈ cs := by
        rcases List.mem_cons.mp h with rfl | h2
        · exact absurd rfl hc
        · exact h2
      have := slash_mem_splitSlash_length hcs
      cases hx : splitSlash cs with
      | nil => exact absurd hx (splitSlash_ne_nil cs)
      | cons q rest =>
        rw [hx] at this
        simpa using this

/-! ## Slashes survive normalization -/

theorem slash_mem_nfkd {s : List Char} : ('/') ∈ nfkd s ↔ ('/') ∈ s := by
  simp only [nfkd, List.mem_flatten, List.mem_map]
  constructor
  · rintro ⟨a, ⟨c, hc, rfl⟩, hm⟩
    rcases slash_nfkdChar.mp hm with rfl
    exact hc
  · intro h
    exact ⟨nfkdChar '/', ⟨'/', h, rfl⟩, by decide⟩

theorem slash_mem_filter {s : List Char} :
    ('/') ∈ s.filter (fun c => !(isCombining c)) ↔ ('/') ∈ s := by
  rw [List.mem_filter]
  exact ⟨fun h => h.1, fun h => ⟨h, by decide⟩⟩

theorem slash_mem_map_lower {l : List Char} :
    ('/') ∈ l.map lowerChar ↔ ('/') ∈ l := by
  simp only [List.mem_map]
  constructor
  · rintro ⟨c, hc, he⟩
    rcases lowerChar_slash.mp he with rfl
    exact hc
  · intro h
    exact ⟨'/', h, by decide⟩

theorem slash_mem_normalize {s : List Char} :
    ('/') ∈ normalize_name s ↔ ('/') ∈ s := by
  unfold normalize_name
  rw [slash_mem_map_lower, mem_stripWs_iff (by decide), slash_mem_filter,
    slash_mem_nfkd]

/-! ## Cache lookup membership -/

theorem lookupC_mem : ∀ {c : Cache} {k v : List Char},
    lookupC c k = some v → (k, v) ∈ c := by
  intro c
  induction c with
  | nil => intro k v h; simp [lookupC] at h
  | cons e es ih =>
    intro k v h
    unfold lookupC at h
    split at h
    · next he =>
      rcases Option.some.injEq .. ▸ h with rfl
      have : (k, e.2) = e := by
        rw [← he]
      rw [this]
      exact List.mem_cons_self _ _
    · exact List.mem_cons_of_mem _ (ih h)

/-! ## Walk lemmas -/

theorem folder_eta (f : Folder) : Folder.mk f.name f.children = f := by
  cases f
  rfl

theorem folder_name_mk (n : List Char) (cs : List Folder) :
    (Folder.mk n cs).name = n := rfl

theorem folder_children_mk (n : List Char) (cs : List Folder) :
    (Folder.mk n cs).children = cs := rfl

theorem walkF_name (create : Bool) :
    ∀ (rest : List (List Char)) (f : Folder) (real : List Char) (cache : Cache),
      ((walkF create rest f real cache).tree).name = f.name := by
  intro rest
  induction rest with
  | nil => intro f real cache; rfl
  | cons part rest ih =>
    intro f real cache
    simp only [walkF]
    cases h : findIdxNamed part f.children with
    | some i => rfl
    | none =>
      cases create with
      | false => rfl
      | true => rfl

theorem walkF_false (rest : List (List Char)) :
    ∀ (f : Folder) (real : List Char) (cache : Cache),
      (walkF false rest f real cache).tree = f ∧
        (walkF false rest f real cache).created = 0 := by
  induction rest with
  | nil => intro f real cache; exact ⟨rfl, rfl⟩
  | cons part rest ih =>
    intro f real cache
    simp only [walkF]
    cases h : findIdxNamed part f.children with
    | some i =>
      obtain ⟨ht, hc⟩ :=
        ih (getIdx f.children i) (real ++ '/' :: part)
          (record cache (real ++ '/' :: part))
      constructor
      · show Folder.mk f.name (f.children.set i _) = f
        rw [ht, set_getIdx_self (findIdxNamed_some h).1, folder_eta]
      · exact hc
    | none => exact ⟨rfl, rfl⟩

theorem walkF_true_node (rest : List (List Char)) :
    ∀ (f : Folder) (real : List Char) (cache : Cache),
      ∃ idx, (walkF true rest f real cache).res = RRes.node idx := by
  induction rest with
  | nil => intro f real cache; exact ⟨[], rfl⟩
  | cons part rest ih =>
    intro f real cache
    simp only [walkF]
    cases h : findIdxNamed part f.children with
    | some i =>
      obtain ⟨idx, hidx⟩ :=
        ih (getIdx f.children i) (real ++ '/' :: part)
          (record cache (real ++ '/' :: part))
      exact ⟨i :: idx, by simp [hidx, RRes.push]⟩
    | none =>
      obtain ⟨idx, hidx⟩ :=
        ih (Folder.mk part []) (real ++ '/' :: part)
          (record cache (real ++ '/' :: part))
      exact ⟨f.children.length :: idx, by simp [hidx, RRes.push]⟩

theorem walkF_cache_pre (create : Bool) (rest : List (List Char)) :
    ∀ (f : Folder) (real : List Char) (cache : Cache),
      ∃ pre, (walkF create rest f real cache).cache = pre ++ cache ∧
        ∀ e ∈ pre, e.1 = normalize_name e.2 := by
  induction rest with
  | nil => intro f real cache; exact ⟨[], rfl, by simp⟩
  | cons part rest ih =>
    intro f real cache
    simp only [walkF]
    cases h : findIdxNamed part f.children with
    | some i =>
      obtain ⟨pre, hp, hwf⟩ :=
        ih (getIdx f.children i) (real ++ '/' :: part)
          (record cache (real ++ '/' :: part))
      refine ⟨pre ++ [(normalize_name (real ++ '/' :: part), real ++ '/' :: part)],
        ?_, ?_⟩
      · rw [hp]
        simp [record, List.append_assoc]
      · intro e he
        rcases List.mem_append.mp he with h1 | h2
        · exact hwf e h1
        · rcases List.mem_singleton.mp h2 with rfl
          rfl
    | none =>
      cases create with
      | true =>
        obtain ⟨pre, hp, hwf⟩ :=
          ih (Folder.mk part []) (real ++ '/' :: part)
            (record cache (real ++ '/' :: part))
        refine ⟨pre ++ [(normalize_name (real ++ '/' :: part), real ++ '/' :: part)],
          ?_, ?_⟩
        · show (walkF true rest (Folder.mk part []) (real ++ '/' :: part)
              (record cache (real ++ '/' :: part))).cache = _
          rw [hp]
          simp [record, List.append_assoc]
        · intro e he
          rcases List.mem_append.mp he with h1 | h2
          · exact hwf e h1
          · rcases List.mem_singleton.mp h2 with rfl
            rfl
      | false => exact ⟨[], rfl, by simp⟩

theorem walkF_cache_head :
    ∀ (rest : List (List Char)), rest ≠ [] →
      ∀ (f : Folder) (real : List Char) (cache : Cache),
        ∃ ctail, (walkF true rest f real cache).cache
          = (normalize_name (joinAll real rest), joinAll real rest) :: ctail := by
  intro rest
  induction rest with
  | nil => intro h; exact absurd rfl h
  | cons part rest' ih =>
    intro _ f real cache
    simp only [walkF]
    cases h : findIdxNamed part f.children with
    | some i =>
      cases hr : rest' with
      | nil =>
        subst hr
        exact ⟨cache, rfl⟩
      | cons q rest'' =>
        obtain ⟨ctail, hc⟩ :=
          ih (by rw [hr]; simp) (getIdx f.children i) (real ++ '/' :: part)
            (record cache (real ++ '/' :: part))
        rw [← hr]
        exact ⟨ctail, hc⟩
    | none =>
      simp only [if_true]
      cases hr : rest' with
      | nil =>
        subst hr
        exact ⟨cache, rfl⟩
      | cons q rest'' =>
        obtain ⟨ctail, hc⟩ :=
          ih (by rw [hr]; simp) (Folder.mk part []) (real ++ '/' :: part)
            (record cache (real ++ '/' :: part))
        rw [← hr]
        exact ⟨ctail, hc⟩

theorem getIdx_append_lt : ∀ {l : List Folder} {j : Nat} (x : Folder),
    j < l.length → getIdx (l ++ [x]) j = getIdx l j := by
  intro l
  induction l with
  | nil => intro j x h; simp at h
  | cons f fs ih =>
    intro j x h
    cases j with
    | zero => rfl
    | succ j' => exact ih x (by simpa using h)

/-- One-step unfolding of the walk when the segment is found. -/
theorem walkF_cons_some {part : List Char} {g : Folder} {i : Nat}
    (rest : List (List Char)) (real : List Char) (cache : Cache)
    (h : findIdxNamed part g.children = some i) :
    walkF true (part :: rest) g real cache
      = ⟨Folder.mk g.name (g.children.set i
            (walkF true rest (getIdx g.children i) (real ++ '/' :: part)
              (record cache (real ++ '/' :: part))).tree),
          (walkF true rest (getIdx g.children i) (real ++ '/' :: part)
            (record cache (real ++ '/' :: part))).cache,
          RRes.push i (walkF true rest (getIdx g.children i) (real ++ '/' :: part)
            (record cache (real ++ '/' :: part))).res,
          (walkF true rest (getIdx g.children i) (real ++ '/' :: part)
            (record cache (real ++ '/' :: part))).created⟩ := by
  simp only [walkF, h]

/-- One-step unfolding of the walk when the segment is missing and creation
is allowed. -/
theorem walkF_cons_none {part : List Char} {g : Folder}
    (rest : List (List Char)) (real : List Char) (cache : Cache)
    (h : findIdxNamed part g.children = none) :
    walkF true (part :: rest) g real cache
      = ⟨Folder.mk g.name (g.children ++
            [(walkF true rest (Folder.mk part []) (real ++ '/' :: part)
              (record cache (real ++ '/' :: part))).tree]),
          (walkF true rest (Folder.mk part []) (real ++ '/' :: part)
            (record cache (real ++ '/' :: part))).cache,
          RRes.push g.children.length
            (walkF true rest (Folder.mk part []) (real ++ '/' :: part)
              (record cache (real ++ '/' :: part))).res,
          (walkF true rest (Folder.mk part []) (real ++ '/' :: part)
            (record cache (real ++ '/' :: part))).created + 1⟩ := by
  simp only [walkF, h, if_true]

/-- Re-walking the same segments over the tree produced by a successful
creating walk finds every segment at the same child index: the tree is
unchanged, the same node is reached, and no folder is created. -/
theorem walkF_again :
    ∀ (rest : List (List Char)) (f : Folder) (real : List Char) (cache cache2 : Cache),
      ∃ c', walkF true rest (walkF true rest f real cache).tree real cache2
        = ⟨(walkF true rest f real cache).tree, c',
            (walkF true rest f real cache).res, 0⟩ := by
  intro rest
  induction rest with
  | nil =>
    intro f real cache cache2
    exact ⟨cache2, rfl⟩
  | cons part rest ih =>
    intro f real cache cache2
    cases h : findIdxNamed part f.children with
    | some i =>
      obtain ⟨hlen, hname, hbefore⟩ := findIdxNamed_some h
      rw [walkF_cons_some rest real cache h]
      dsimp only
      have hg : getIdx (f.children.set i
          (walkF true rest (getIdx f.children i) (real ++ '/' :: part)
            (record cache (real ++ '/' :: part))).tree) i
          = (walkF true rest (getIdx f.children i) (real ++ '/' :: part)
            (record cache (real ++ '/' :: part))).tree := getIdx_set_eq _ hlen
      have hf2 : findIdxNamed part
          (Folder.mk f.name (f.children.set i
            (walkF true rest (getIdx f.children i) (real ++ '/' :: part)
              (record cache (real ++ '/' :: part))).tree)).children = some i := by
        apply findIdxNamed_intro
        · show i < (f.children.set i _).length
          rw [List.length_set]
          exact hlen
        · show (getIdx (f.children.set i _) i).name = part
          rw [hg, walkF_name]
          exact hname
        · intro j hj
          show (getIdx (f.children.set i _) j).name ≠ part
          rw [getIdx_set_ne _ (Nat.ne_of_lt hj)]
          exact hbefore j hj
      rw [walkF_cons_some rest real cache2 hf2]
      simp only [folder_name_mk, folder_children_mk]
      rw [hg]
      obtain ⟨c', hih⟩ := ih (getIdx f.children i) (real ++ '/' :: part)
        (record cache (real ++ '/' :: part)) (record cache2 (real ++ '/' :: part))
      rw [hih]
      exact ⟨c', by rw [List.set_set]⟩
    | none =>
      rw [walkF_cons_none rest real cache h]
      have hga : getIdx (f.children ++
          [(walkF true rest (Folder.mk part []) (real ++ '/' :: part)
            (record cache (real ++ '/' :: part))).tree]) f.children.length
          = (walkF true rest (Folder.mk part []) (real ++ '/' :: part)
            (record cache (real ++ '/' :: part))).tree := getIdx_append_len _ _
      have hf2 : findIdxNamed part
          (Folder.mk f.name (f.children ++
            [(walkF true rest (Folder.mk part []) (real ++ '/' :: part)
              (record cache (real ++ '/' :: part))).tree])).children
          = some f.children.length := by
        apply findIdxNamed_intro
        · show f.children.length < (f.children ++ [_]).length
          simp
        · show (getIdx (f.children ++ [_]) f.children.length).name = part
          rw [hga, walkF_name]
          rfl
        · intro j hj
          show (getIdx (f.children ++ [_]) j).name ≠ part
          rw [getIdx_append_lt _ hj]
          exact findIdxNamed_none h j hj
      rw [walkF_cons_some rest real cache2 hf2]
      simp only [folder_name_mk, folder_children_mk]
      rw [hga]
      obtain ⟨c', hih⟩ := ih (Folder.mk part []) (real ++ '/' :: part)
        (record cache (real ++ '/' :: part)) (record cache2 (real ++ '/' :: part))
      rw [hih]
      exact ⟨c', by rw [set_append_len]⟩

/-! ## Resolve-level lemmas -/

theorem splitSlash_cons (s : List Char) :
    ∃ p0 rest, splitSlash s = p0 :: rest := by
  cases h : splitSlash s with
  | nil => exact absurd h (splitSlash_ne_nil s)
  | cons p0 rest => exact ⟨p0, rest, rfl⟩

theorem walkOf_eq (create : Bool) (root : Folder) (cache : Cache) (p : List Char)
    {p0 : List Char} {rest : List (List Char)}
    (hsplit : splitSlash (resolveInput cache p) = p0 :: rest) :
    walkOf create root cache p = walkF create rest root p0 cache := by
  simp only [walkOf]
  rw [hsplit]
  rfl

theorem gocf_node (create : Bool) (root : Folder) (cache : Cache) (p : List Char)
    (idx : List Nat) (hres : (walkOf create root cache p).res = RRes.node idx) :
    get_or_create_folder create root cache p
      = ⟨(walkOf create root cache p).tree, (walkOf create root cache p).cache,
          idx, (walkOf create root cache p).created⟩ := by
  simp only [get_or_create_folder]
  rw [hres]

theorem gocf_fallback (create : Bool) (root : Folder) (cache : Cache) (p : List Char)
    (hres : (walkOf create root cache p).res = RRes.fallback) :
    get_or_create_folder create root cache p
      = ⟨(walkOf create root cache p).tree, (walkOf create root cache p).cache,
          fallbackIdx (walkOf create root cache p).tree,
          (walkOf create root cache p).created⟩ := by
  simp only [get_or_create_folder]
  rw [hres]

theorem gocf_cache (create : Bool) (root : Folder) (cache : Cache) (p : List Char) :
    (get_or_create_folder create root cache p).cache
      = (walkOf create root cache p).cache := by
  simp only [get_or_create_folder]
  cases h : (walkOf create root cache p).res with
  | node idx => rfl
  | fallback => rfl

/-- The key step of the second-resolve analysis: the folder path actually
walked by a resolve call has the same canonical key as the suggested path
(when the initial cache satisfies the self-consistency invariant). -/
theorem resolveInput_key (cache : Cache) (p : List Char) (hwf : CacheWF cache) :
    normalize_name (resolveInput cache p) = normalize_name p := by
  unfold resolveInput
  cases hl : lookupC cache (normalize_name p) with
  | none => rfl
  | some C =>
    have hmem := lookupC_mem hl
    have := hwf _ hmem
    exact (this).symm

/-- Master lemma: with creation allowed and a self-consistent cache, a second
resolve of any path with the same canonical key returns the same node index,
leaves the tree unchanged and creates no folder. -/
theorem resolve_again (root : Folder) (cache : Cache) (p1 p2 : List Char)
    (hwf : CacheWF cache) (hn : normalize_name p1 = normalize_name p2) :
    (get_or_create_folder true (get_or_create_folder true root cache p1).tree
        (get_or_create_folder true root cache p1).cache p2).tree
      = (get_or_create_folder true root cache p1).tree ∧
    (get_or_create_folder true (get_or_create_folder true root cache p1).tree
        (get_or_create_folder true root cache p1).cache p2).node
      = (get_or_create_folder true root cache p1).node ∧
    (get_or_create_folder true (get_or_create_folder true root cache p1).tree
        (get_or_create_folder true root cache p1).cache p2).created = 0 := by
  have hfp : normalize_name (resolveInput cache p1) = normalize_name p1 :=
    resolveInput_key cache p1 hwf
  obtain ⟨p0, rest, hsplit⟩ := splitSlash_cons (resolveInput cache p1)
  cases rest with
  | nil =>
    -- the walked path has a single segment: the walk is empty
    have hone : resolveInput cache p1 = p0 := (joinAll_splitSlash _ hsplit).symm
    have hw1 : walkOf true root cache p1 = walkF true [] root p0 cache :=
      walkOf_eq true root cache p1 hsplit
    have hr1 : get_or_create_folder true root cache p1 = ⟨root, cache, [], 0⟩ := by
      rw [gocf_node true root cache p1 [] (by rw [hw1]; rfl), hw1]
      rfl
    rw [hr1]
    -- second call: the cache is unchanged, so the lookup gives the same result
    cases hl : lookupC cache (normalize_name p1) with
    | some C =>
      have hC : resolveInput cache p1 = C := by
        unfold resolveInput
        rw [hl]
      have hres2 : resolveInput cache p2 = C := by
        unfold resolveInput
        rw [← hn, hl]
      have hsplit2 : splitSlash (resolveInput cache p2) = [p0] := by
        rw [hres2, ← hC]
        exact hsplit
      have hw2 : walkOf true root cache p2 = walkF true [] root p0 cache :=
        walkOf_eq true root cache p2 hsplit2
      have hr2 : get_or_create_folder true root cache p2 = ⟨root, cache, [], 0⟩ := by
        rw [gocf_node true root cache p2 [] (by rw [hw2]; rfl), hw2]
        rfl
      rw [hr2]
      exact ⟨rfl, rfl, rfl⟩
    | none =>
      have hC : resolveInput cache p1 = p1 := by
        unfold resolveInput
        rw [hl]
      -- fp1 = p1, a single segment: p1 contains no slash, hence neither does p2
      have hp1 : ('/') ∉ p1 := by
        intro hmem
        have hlen2 := slash_mem_splitSlash_length hmem
        rw [← hC, hsplit] at hlen2
        simp at hlen2
      have hp2 : ('/') ∉ p2 := by
        intro hmem
        have h2 : ('/') ∈ normalize_name p2 := slash_mem_normalize.mpr hmem
        rw [← hn] at h2
        exact hp1 (slash_mem_normalize.mp h2)
      have hsplit2 : splitSlash (resolveInput cache p2) = [p2] := by
        unfold resolveInput
        rw [← hn, hl]
        exact splitSlash_no_slash hp2
      have hw2 : walkOf true root cache p2 = walkF true [] root p2 cache :=
        walkOf_eq true root cache p2 hsplit2
      have hr2 : get_or_create_folder true root cache p2 = ⟨root, cache, [], 0⟩ := by
        rw [gocf_node true root cache p2 [] (by rw [hw2]; rfl), hw2]
        rfl
      rw [hr2]
      exact ⟨rfl, rfl, rfl⟩
  | cons q rest' =>
    -- at least one walked segment: the final record seals the cache head
    have hw1 : walkOf true root cache p1 = walkF true (q :: rest') root p0 cache :=
      walkOf_eq true root cache p1 hsplit
    obtain ⟨idx, hidx⟩ := walkF_true_node (q :: rest') root p0 cache
    have hr1 : get_or_create_folder true root cache p1
        = ⟨(walkF true (q :: rest') root p0 cache).tree,
            (walkF true (q :: rest') root p0 cache).cache, idx,
            (walkF true (q :: rest') root p0 cache).created⟩ := by
      rw [gocf_node true root cache p1 idx (by rw [hw1]; exact hidx), hw1]
    have hJ : joinAll p0 (q :: rest') = resolveInput cache p1 :=
      joinAll_splitSlash _ hsplit
    obtain ⟨ctail, hhead⟩ :=
      walkF_cache_head (q :: rest') (by simp) root p0 cache
    rw [hJ] at hhead
    -- second resolve: the cache lookup now hits the final record
    have hlook2 : lookupC (walkF true (q :: rest') root p0 cache).cache
        (normalize_name p2) = some (resolveInput cache p1) := by
      rw [hhead, ← hn, ← hfp]
      unfold lookupC
      rw [if_pos rfl]
    have hsplit2 : splitSlash (resolveInput
        (walkF true (q :: rest') root p0 cache).cache p2) = p0 :: q :: rest' := by
      unfold resolveInput
      rw [hlook2]
      exact hsplit
    obtain ⟨c', hagain⟩ :=
      walkF_again (q :: rest') root p0 cache
        (walkF true (q :: rest') root p0 cache).cache
    have hw2 : walkOf true (walkF true (q :: rest') root p0 cache).tree
        (walkF true (q :: rest') root p0 cache).cache p2
        = walkF true (q :: rest') (walkF true (q :: rest') root p0 cache).tree p0
            (walkF true (q :: rest') root p0 cache).cache :=
      walkOf_eq true _ _ p2 hsplit2
    have hr2 : get_or_create_folder true (walkF true (q :: rest') root p0 cache).tree
        (walkF true (q :: rest') root p0 cache).cache p2
        = ⟨(walkF true (q :: rest') root p0 cache).tree, c', idx, 0⟩ := by
      rw [gocf_node true _ _ p2 idx (by rw [hw2, hagain, hidx]), hw2, hagain]
    rw [hr1]
    dsimp only
    rw [hr2]
    exact ⟨rfl, rfl, rfl⟩

/-! ## Claim C1 — same canonical key, same folder node

The cache self-consistency hypothesis `CacheWF` holds for every cache the
program ever constructs (claim C10: the traversal-built cache from the empty
dict, and every resolver update, preserve it), so it expresses "a tree and
cache mutated only by this program". -/

/-- Claim C1: for every pair of suggested paths with the same canonical key,
resolving the first and then the second (creation allowed, on the tree and
cache left by the first call, the initial cache self-consistent) returns the
same real folder node — the same index path in the same final tree — and
that includes the case in which the first resolve is what creates the
folder, since nothing here assumes the walked segments exist beforehand. -/
theorem C1_resolve_same_key (root : Folder) (cache : Cache) (p1 p2 : List Char)
    (hwf : CacheWF cache) (hn : normalize_name p1 = normalize_name p2) :
    (get_or_create_folder true (get_or_create_folder true root cache p1).tree
        (get_or_create_folder true root cache p1).cache p2).node
      = (get_or_create_folder true root cache p1).node ∧
    (get_or_create_folder true (get_or_create_folder true root cache p1).tree
        (get_or_create_folder true root cache p1).cache p2).tree
      = (get_or_create_folder true root cache p1).tree := by
  have h := resolve_again root cache p1 p2 hwf hn
  exact ⟨h.2.1, h.1⟩

/-- Claim C1, witness: `"Postvak In/Orders"` and `"postvak in/ORDERS"`
normalize to the same key; on an empty tree and empty cache the first
resolve creates the `Orders` folder (creation count 1) and the second
resolve returns the same node. -/
theorem C1_resolve_same_key_witness :
    CacheWF [] ∧
    normalize_name (("Postvak In/Orders").data)
      = normalize_name (("postvak in/ORDERS").data) ∧
    ((get_or_create_folder true
        (get_or_create_folder true (Folder.mk inboxName []) []
          (("Postvak In/Orders").data)).tree
        (get_or_create_folder true (Folder.mk inboxName []) []
          (("Postvak In/Orders").data)).cache
        (("postvak in/ORDERS").data)).node
      = (get_or_create_folder true (Folder.mk inboxName []) []
          (("Postvak In/Orders").data)).node ∧
      (get_or_create_folder true
        (get_or_create_folder true (Folder.mk inboxName []) []
          (("Postvak In/Orders").data)).tree
        (get_or_create_folder true (Folder.mk inboxName []) []
          (("Postvak In/Orders").data)).cache
        (("postvak in/ORDERS").data)).tree
      = (get_or_create_folder true (Folder.mk inboxName []) []
          (("Postvak In/Orders").data)).tree) ∧
    (get_or_create_folder true (Folder.mk inboxName []) []
      (("Postvak In/Orders").data)).created = 1 := by
  have hwf : CacheWF ([] : Cache) := by
    intro e he
    cases he
  refine ⟨hwf, by decide, ?_, by rfl⟩
  exact C1_resolve_same_key (Folder.mk inboxName []) [] _ _ hwf (by decide)

/-! ## Claim C4 — resolving the same path twice is idempotent -/

/-- Claim C4: resolving the same path twice with creation allowed (on a
self-consistent cache, see C10) is idempotent on the tree: the second call
creates zero new folders, leaves the tree unchanged and returns the same
node as the first call. -/
theorem C4_resolve_twice (root : Folder) (cache : Cache) (p : List Char)
    (hwf : CacheWF cache) :
    (get_or_create_folder true (get_or_create_folder true root cache p).tree
        (get_or_create_folder true root cache p).cache p).node
      = (get_or_create_folder true root cache p).node ∧
    (get_or_create_folder true (get_or_create_folder true root cache p).tree
        (get_or_create_folder true root cache p).cache p).created = 0 ∧
    (get_or_create_folder true (get_or_create_folder true root cache p).tree
        (get_or_create_folder true root cache p).cache p).tree
      = (get_or_create_folder true root cache p).tree := by
  have h := resolve_again root cache p p hwf rfl
  exact ⟨h.2.1, h.2.2, h.1⟩

/-- Claim C4, witness: resolving `"Postvak In/A/B"` twice on an empty tree;
the first call creates two folders, the second creates zero and returns the
same node. -/
theorem C4_resolve_twice_witness :
    CacheWF [] ∧
    (get_or_create_folder true (Folder.mk inboxName []) []
      (("Postvak In/A/B").data)).created = 2 ∧
    ((get_or_create_folder true
        (get_or_create_folder true (Folder.mk inboxName []) []
          (("Postvak In/A/B").data)).tree
        (get_or_create_folder true (Folder.mk inboxName []) []
          (("Postvak In/A/B").data)).cache
        (("Postvak In/A/B").data)).node
      = (get_or_create_folder true (Folder.mk inboxName []) []
          (("Postvak In/A/B").data)).node ∧
      (get_or_create_folder true
        (get_or_create_folder true (Folder.mk inboxName []) []
          (("Postvak In/A/B").data)).tree
        (get_or_create_folder true (Folder.mk inboxName []) []
          (("Postvak In/A/B").data)).cache
        (("Postvak In/A/B").data)).created = 0 ∧
      (get_or_create_folder true
        (get_or_create_folder true (Folder.mk inboxName []) []
          (("Postvak In/A/B").data)).tree
        (get_or_create_folder true (Folder.mk inboxName []) []
          (("Postvak In/A/B").data)).cache
        (("Postvak In/A/B").data)).tree
      = (get_or_create_folder true (Folder.mk inboxName []) []
          (("Postvak In/A/B").data)).tree) := by
  have hwf : CacheWF ([] : Cache) := by
    intro e he
    cases he
  exact ⟨hwf, by rfl,
    C4_resolve_twice (Folder.mk inboxName []) [] (("Postvak In/A/B").data) hwf⟩

/-! ## Claim C5 — creation disallowed routes to the Unsorted child -/

/-- Claim C5: when folder creation is disallowed and the segment walk hits a
segment with no exactly-named child (the walk outcome is the abandon
signal), the resolver returns the first `"Unsorted"` child of the root — or
the root itself when no such child exists, which is what `fallbackIdx`
computes — and the tree is unchanged with zero folders created. -/
theorem C5_nocreate_fallback (root : Folder) (cache : Cache) (p : List Char)
    (hres : (walkOf false root cache p).res = RRes.fallback) :
    (get_or_create_folder false root cache p).tree = root ∧
    (get_or_create_folder false root cache p).created = 0 ∧
    (get_or_create_folder false root cache p).node = fallbackIdx root := by
  obtain ⟨p0, rest, hsplit⟩ := splitSlash_cons (resolveInput cache p)
  have hwo := walkOf_eq false root cache p hsplit
  obtain ⟨ht, hc⟩ := walkF_false rest root p0 cache
  rw [gocf_fallback false root cache p hres]
  refine ⟨?_, ?_, ?_⟩
  · show (walkOf false root cache p).tree = root
    rw [hwo]
    exact ht
  · show (walkOf false root cache p).created = 0
    rw [hwo]
    exact hc
  · show fallbackIdx (walkOf false root cache p).tree = fallbackIdx root
    rw [hwo, ht]

/-- Claim C5, witness: with creation disabled, resolving
`"Postvak In/NewCategory"` on a tree whose root has an `"Unsorted"` child
abandons the walk, creates nothing, and returns the `"Unsorted"` child
(index path `[0]`). -/
theorem C5_nocreate_fallback_witness :
    (walkOf false (Folder.mk inboxName [Folder.mk unsortedName []]) []
      (("Postvak In/NewCategory").data)).res = RRes.fallback ∧
    fallbackIdx (Folder.mk inboxName [Folder.mk unsortedName []]) = [0] ∧
    ((get_or_create_folder false (Folder.mk inboxName [Folder.mk unsortedName []])
        [] (("Postvak In/NewCategory").data)).tree
      = Folder.mk inboxName [Folder.mk unsortedName []] ∧
      (get_or_create_folder false (Folder.mk inboxName [Folder.mk unsortedName []])
        [] (("Postvak In/NewCategory").data)).created = 0 ∧
      (get_or_create_folder false (Folder.mk inboxName [Folder.mk unsortedName []])
        [] (("Postvak In/NewCategory").data)).node
      = fallbackIdx (Folder.mk inboxName [Folder.mk unsortedName []])) := by
  have hres : (walkOf false (Folder.mk inboxName [Folder.mk unsortedName []]) []
      (("Postvak In/NewCategory").data)).res = RRes.fallback := by decide
  exact ⟨hres, by decide, C5_nocreate_fallback _ _ _ hres⟩

/-! ## Claim C10 — cache self-consistency invariant -/

/-- Claim C10: every cache entry the program creates maps the normalized
form of its value to that value (`CacheWF`); this invariant is preserved by
the rebuild traversal and by the resolver's per-segment recording, and both
operations only add entries on top of the existing ones (no entry is ever
removed). -/
theorem C10_cache_invariant (cache : Cache) (root : Folder) (base : List Char)
    (create : Bool) (p : List Char) (hwf : CacheWF cache) :
    (CacheWF (build_folder_cache root base cache) ∧
      ∃ pre, build_folder_cache root base cache = pre ++ cache) ∧
    (CacheWF ((get_or_create_folder create root cache p).cache) ∧
      ∃ pre2, (get_or_create_folder create root cache p).cache = pre2 ++ cache) := by
  constructor
  · constructor
    · intro e he
      rw [build_folder_cache_eq] at he
      rcases List.mem_append.mp he with h1 | h2
      · rw [List.mem_reverse] at h1
        rcases List.mem_map.mp h1 with ⟨q, _, rfl⟩
        rfl
      · exact hwf e h2
    · exact ⟨_, build_folder_cache_eq root base cache⟩
  · obtain ⟨p0, rest, hsplit⟩ := splitSlash_cons (resolveInput cache p)
    have hwo := walkOf_eq create root cache p hsplit
    obtain ⟨pre, hpre, hprewf⟩ := walkF_cache_pre create rest root p0 cache
    constructor
    · intro e he
      rw [gocf_cache, hwo, hpre] at he
      rcases List.mem_append.mp he with h1 | h2
      · exact hprewf e h1
      · exact hwf e h2
    · exact ⟨pre, by rw [gocf_cache, hwo, hpre]⟩

/-- Claim C10, witness: instantiated at the empty cache, a single-child
tree, and a creating resolve of `"Postvak In/Orders"`. -/
theorem C10_cache_invariant_witness :
    CacheWF [] ∧
    ((CacheWF (build_folder_cache (Folder.mk inboxName [Folder.mk (("A").data) []])
        inboxName []) ∧
      ∃ pre, build_folder_cache (Folder.mk inboxName [Folder.mk (("A").data) []])
        inboxName [] = pre ++ []) ∧
    (CacheWF ((get_or_create_folder true
        (Folder.mk inboxName [Folder.mk (("A").data) []]) []
        (("Postvak In/Orders").data)).cache) ∧
      ∃ pre2, (get_or_create_folder true
        (Folder.mk inboxName [Folder.mk (("A").data) []]) []
        (("Postvak In/Orders").data)).cache = pre2 ++ [])) := by
  have hwf : CacheWF ([] : Cache) := by
    intro e he
    cases he
  exact ⟨hwf, C10_cache_invariant [] (Folder.mk inboxName [Folder.mk (("A").data) []])
    inboxName true (("Postvak In/Orders").data) hwf⟩

end MailSort
